import Mathlib

/-!
Verification of the TransferAgentMarketAnalysis pipeline.

The repository resolves, per subject company, which transfer agent it
currently uses, from noisy evidence rows, and aggregates the results into
market-share tables.  Python strings are embedded as `List Char` (named
`Str`) so that every operation reduces in the kernel; pandas sorts are
modelled as stable sorts (pandas multi-column `sort_values` uses the
stable lexsort, and single-column sorts are stable on the small inputs
appearing in the concrete test vectors); python dicts are modelled as
association lists where the last assignment wins; similarity scores and
percentages are embedded as rationals.
-/

/-- Embedded python strings: a list of characters. -/
abbrev Str := List Char

/-- Turn a Lean string literal into its embedded form. -/
def S (s : String) : Str := s.data

/-- Python `str.lower()`. -/
def lowerStr (s : Str) : Str := s.map Char.toLower

/-- Python `str.strip()`: drop whitespace from both ends. -/
def trimStr (s : Str) : Str :=
  ((s.dropWhile Char.isWhitespace).reverse.dropWhile Char.isWhitespace).reverse

/-- Python `s.startswith(t)`. -/
def startsWithStr : Str → Str → Bool
  | _, [] => true
  | [], _ :: _ => false
  | a :: as, b :: bs => a == b && startsWithStr as bs

/-- Python `t in s` (substring containment). -/
def containsStr : Str → Str → Bool
  | [], sub => sub.isEmpty
  | c :: rest, sub => startsWithStr (c :: rest) sub || containsStr rest sub

/-- Lexicographic strict order on embedded strings (python `<` on `str`). -/
def ltStr : Str → Str → Bool
  | [], [] => false
  | [], _ :: _ => true
  | _ :: _, [] => false
  | a :: as, b :: bs => decide (a < b) || (a == b && ltStr as bs)

/-- Lexicographic `≤` on embedded strings. -/
def leStr (a b : Str) : Bool := !ltStr b a

/-- Insert one element into a sorted list, before any element it ties with
under `le` (the stability discipline of a stable sort). -/
def insertSorted {α : Type} (le : α → α → Bool) (a : α) : List α → List α
  | [] => [a]
  | b :: bs => if le a b then a :: b :: bs else b :: insertSorted le a bs

/-- Stable sort by the boolean comparison `le`; models pandas
`DataFrame.sort_values` (elements comparing equal keep their input order). -/
def sortValues {α : Type} (le : α → α → Bool) (l : List α) : List α :=
  l.foldr (insertSorted le) []

/-- First-occurrence deduplication by a key function: walk the list keeping
an element only when its key has not been seen before.  Models the
`seen`-set loops and `drop_duplicates` of the sources. -/
def dedupFirst {α β : Type} [DecidableEq β] (key : α → β) (seen : List β) :
    List α → List α
  | [] => []
  | a :: rest =>
    if key a ∈ seen then dedupFirst key seen rest
    else a :: dedupFirst key (key a :: seen) rest

/-- One step of the `idxmax` scan: a later row replaces the running best
only when strictly greater. -/
def idxmaxStep {α : Type} (keyOf : α → Nat) (acc : Option α) (r : α) : Option α :=
  match acc with
  | none => some r
  | some m => if keyOf m < keyOf r then some r else some m

/-- Pandas `idxmax` over one group: the first row attaining the maximum of
the given numeric key. -/
def idxmaxBy {α : Type} (keyOf : α → Nat) (rows : List α) : Option α :=
  rows.foldl (idxmaxStep keyOf) none

/-- Round a rational to the nearest integer, halves to the even integer
(the rounding used by numpy/pandas `round`). -/
def roundHalfEven (q : ℚ) : ℤ :=
  let f : ℤ := ⌊q⌋
  let r : ℚ := q - (f : ℚ)
  if r < 1/2 then f
  else if 1/2 < r then f + 1
  else if f % 2 = 0 then f else f + 1

/-- Round a rational to 2 decimal places, halves to even (pandas
`.round(2)`). -/
def round2 (q : ℚ) : ℚ := ((roundHalfEven (100 * q) : ℤ) : ℚ) / 100

/-- Decimal digits of a natural number, as an embedded string
(python f-string interpolation of an int). -/
def natToStr (n : Nat) : Str := (Nat.repr n).data

/-!
Brand Collapser (`brand_of` in `MarketShare.py` and `issuer_count.py`):
an ordered cascade of case-insensitive substring rules, first match wins,
falling back to the original input (including `None`) when no rule matches.
-/

/-- The ordered rule set of `brand_of`: each rule is a predicate on the
lower-cased name together with the brand label it yields. -/
def brandRules : List ((Str → Bool) × Str) :=
  [ (fun n => containsStr n (S "computershare"), S "Computershare"),
    (fun n => containsStr n (S "state street"), S "State Street"),
    (fun n => containsStr n (S "bny mellon") || containsStr n (S "pershing") ||
              containsStr n (S "jpmorgan"), S "BNY Mellon"),
    (fun n => containsStr n (S "equiniti"), S "Equiniti"),
    (fun n => containsStr n (S "fidelity"), S "Fidelity"),
    (fun n => containsStr n (S "vanguard"), S "Vanguard"),
    (fun n => containsStr n (S "american funds") ||
              containsStr n (S "capital group"), S "American Funds"),
    (fun n => startsWithStr n (S "dst "), S "DST") ]

/-- `brand_of` from `MarketShare.py` / `issuer_count.py`.  The argument is
optional because python passes `None` through `(name or "").lower()` and
returns the original value when no rule fires. -/
def brand_of (name : Option Str) : Option Str :=
  let n := lowerStr (name.getD [])
  if containsStr n (S "computershare") then some (S "Computershare")
  else if containsStr n (S "state street") then some (S "State Street")
  else if containsStr n (S "bny mellon") || containsStr n (S "pershing") ||
          containsStr n (S "jpmorgan") then some (S "BNY Mellon")
  else if containsStr n (S "equiniti") then some (S "Equiniti")
  else if containsStr n (S "fidelity") then some (S "Fidelity")
  else if containsStr n (S "vanguard") then some (S "Vanguard")
  else if containsStr n (S "american funds") ||
          containsStr n (S "capital group") then some (S "American Funds")
  else if startsWithStr n (S "dst ") then some (S "DST")
  else name

/-- `brand_of` restricted to an actual string input (the shape used when
mapping it over the `ENTITYNAME` column). -/
def brandOfName (e : Str) : Str := (brand_of (some e)).getD e

/-!
Canonicalizer (`normalise_agent_name` in `src/normalise.py`).  The fuzzy
scorer is the external `rapidfuzz` library, so the similarity function is a
parameter; `extractOne` is modelled from rapidfuzz's documented semantics:
the choice with the highest score is returned (the earliest choice among
equal top scores), and `None` is returned when the best score is below
`score_cutoff` (a score equal to the cutoff is kept).
-/

/-- The candidate pool: every canonical name followed by its variants, in
taxonomy order (`all_variants` in the source). -/
def allVariantsOf (agents : List (Str × List Str)) : List Str :=
  agents.flatMap (fun p => p.1 :: p.2)

/-- The variant-to-canonical association built by the source
(`canonical_to_variant`); later python dict assignments overwrite earlier
ones, so lookup scans the reversed association list. -/
def canonicalPairs (agents : List (Str × List Str)) : List (Str × Str) :=
  agents.flatMap (fun p => (p.1, p.1) :: p.2.map (fun v => (v, p.1)))

/-- Dictionary lookup `canonical_to_variant[v]`. -/
def lookupCanonical (agents : List (Str × List Str)) (v : Str) : Option Str :=
  ((canonicalPairs agents).reverse.find? (fun q => q.1 == v)).map (fun q => q.2)

/-- One step of the best-match scan: maximal score wins, the earliest
choice among ties (a later choice replaces the running best only when
strictly better). -/
def bmStep (query : Str) (scorer : Str → Str → ℚ) (acc : Option (Str × ℚ))
    (c : Str) : Option (Str × ℚ) :=
  match acc with
  | none => some (c, scorer query c)
  | some p => if p.2 < scorer query c then some (c, scorer query c) else some p

/-- The best fuzzy match over the choices (see `bmStep`). -/
def bestMatch (query : Str) (choices : List Str) (scorer : Str → Str → ℚ) :
    Option (Str × ℚ) :=
  choices.foldl (bmStep query scorer) none

/-- Modelled from the documented behaviour of
`rapidfuzz.process.extractOne`: the best match when its score reaches
`score_cutoff`, otherwise `none`. -/
def extractOne (query : Str) (choices : List Str) (scorer : Str → Str → ℚ)
    (score_cutoff : ℚ) : Option (Str × ℚ) :=
  match bestMatch query choices scorer with
  | some (b, s) => if score_cutoff ≤ s then some (b, s) else none
  | none => none

/-- `normalise_agent_name` from `src/normalise.py`. -/
def normalise_agent_name (raw_name : Str) (canonical_agents : List (Str × List Str))
    (scorer : Str → Str → ℚ) (similarity_threshold : ℚ) : Str × ℚ :=
  if raw_name.isEmpty || (trimStr raw_name).length < 3 then (S "UNKNOWN", 0)
  else
    let cleaned_name := trimStr raw_name
    let all_variants := allVariantsOf canonical_agents
    if !all_variants.isEmpty then
      match extractOne cleaned_name all_variants scorer similarity_threshold with
      | some (best, score) =>
        ((lookupCanonical canonical_agents best).getD (S "UNKNOWN"), score)
      | none => (S "UNKNOWN", 0)
    else (S "UNKNOWN", 0)

/-!
Mention Extractor
(`SEC10KAnalyzer.extract_transfer_agents` in
`approaches/daily_index_approach/sec_10k_analysis.py`): all pattern
strategies' occurrence lists are pooled in strategy order, then
deduplicated by `(brand.lower(), context[:50].lower())`, first occurrence
winning.  The per-strategy occurrence lists produced by `re.finditer` are
the input of the model.
-/

/-- One raw mention record as built by the source. -/
structure Mention where
  cik : Str
  accession : Str
  brand : Str
  context : Str
  file : Str
  pattern_used : Str
deriving DecidableEq

/-- The deduplication key `(mention['brand'].lower(),
mention['context'][:50].lower())`. -/
def mentionKey (m : Mention) : Str × Str :=
  (lowerStr m.brand, lowerStr (m.context.take 50))

/-- Pooling plus deduplication: the tail of `extract_transfer_agents`
applied to the per-strategy occurrence lists. -/
def extract_transfer_agents (perStrategy : List (List Mention)) : List Mention :=
  dedupFirst mentionKey [] perStrategy.flatten

/-!
Temporal Resolver and Change Detector
(`analyze_transfer_agent_evolution` in `src/pipeline.py` and
`demo_timeseries_analysis.py`): one company's rows are sorted by
`period_end`, rows whose cleaned agent is missing or `UNKNOWN` are
dropped, the last remaining row is the current agent, and a transition is
recorded at every change along the remaining rows.
-/

/-- One row of the per-company time-series frame (the fields the evolution
analysis reads); `agent` is `none` when `transfer_agent_clean` is NaN. -/
structure TARow where
  period_end : Str
  form_type : Str
  agent : Option Str
deriving DecidableEq

/-- One entry of `agent_history`. -/
structure HistEntry where
  period : Str
  agent : Str
  form_type : Str
deriving DecidableEq

/-- One recorded transfer-agent change. -/
structure AgentChange where
  from_agent : Str
  to_agent : Str
  change_date : Str
  form_type : Str
deriving DecidableEq

/-- `company_data.sort_values('period_end')` followed by the
`agent_history` filter: keep rows whose agent is present and not
`UNKNOWN`. -/
def agent_history (rows : List TARow) : List HistEntry :=
  (sortValues (fun a b => leStr a.period_end b.period_end) rows).filterMap
    (fun r => match r.agent with
      | none => none
      | some a => if a == S "UNKNOWN" then none
                  else some ⟨r.period_end, a, r.form_type⟩)

/-- The inner loop of the change scan: `current_agent` is set and every
later entry with a different agent emits a change. -/
def changesLoop (cur : Str) : List HistEntry → List AgentChange
  | [] => []
  | e :: rest =>
    if e.agent == cur then changesLoop cur rest
    else ⟨cur, e.agent, e.period, e.form_type⟩ :: changesLoop e.agent rest

/-- The change scan of `analyze_transfer_agent_evolution`: runs only when
the history has more than one entry; the first entry initialises
`current_agent` without emitting. -/
def find_changes (hist : List HistEntry) : List AgentChange :=
  if 1 < hist.length then
    match hist with
    | [] => []
    | e :: rest => changesLoop e.agent rest
  else []

/-- `current_agents[ticker] = agent_history[-1]['agent']` (computed only
when the history is non-empty). -/
def current_agent (rows : List TARow) : Option Str :=
  ((agent_history rows).getLast?).map (fun e => e.agent)

/-- Specification-side description of the change list: the adjacent pairs
of a sequence whose two components differ. -/
def adjacentChanges (l : List Str) : List (Str × Str) :=
  (l.zip l.tail).filter (fun p => !(p.1 == p.2))

/-!
Current-agent selection in `MarketShare.py`:
`all_regs.groupby("CIK")["FILING_DATE"].idxmax()` designates, per CIK,
the first row attaining the maximum filing date.
-/

/-- One row of `all_regs` (one TA registration observation). -/
structure Reg where
  cik : Str
  entityname : Str
  filing_date : Nat
deriving DecidableEq

/-- The row `MarketShare.py` designates as current for one CIK's evidence:
pandas `idxmax` over the filing dates. -/
def currentRegOf (rows : List Reg) : Option Reg :=
  idxmaxBy (fun r => r.filing_date) rows

/-!
Final dataset construction (`create_final_dataset` in `src/pipeline.py`):
successful normalisation results become records enriched from the company
lookup, stamped with the wall-clock time `datetime.utcnow()` (a parameter
`now` here), and sorted by `['cik', 'period_end', 'form_type']`.
-/

/-- One normalisation result (the fields `create_final_dataset` reads). -/
structure NormResult where
  success : Bool
  cik : Str
  year : Nat
  form_type : Str
  transfer_agent_raw : Option Str
  transfer_agent_clean : Option Str
  file_path : Str
deriving DecidableEq

/-- One company record of the bootstrap list; ticker and display name are
optional dictionary keys. -/
structure Company where
  cik : Str
  ticker : Option Str
  company_name : Option Str
deriving DecidableEq

/-- One row of the final dataset. -/
structure OutRecord where
  cik : Str
  ticker : Str
  company_name : Str
  period_end : Str
  form_type : Str
  transfer_agent_raw : Option Str
  transfer_agent_clean : Option Str
  filing_url : Str
  retrieved_at : Str
deriving DecidableEq

/-- One row of the final dataset without the `retrieved_at` stamp. -/
structure OutRecordBase where
  cik : Str
  ticker : Str
  company_name : Str
  period_end : Str
  form_type : Str
  transfer_agent_raw : Option Str
  transfer_agent_clean : Option Str
  filing_url : Str
deriving DecidableEq

/-- Forget the `retrieved_at` column. -/
def dropRetrievedAt (r : OutRecord) : OutRecordBase :=
  ⟨r.cik, r.ticker, r.company_name, r.period_end, r.form_type,
   r.transfer_agent_raw, r.transfer_agent_clean, r.filing_url⟩

/-- `company_lookup = {company["cik"]: company for company in companies}`:
for duplicate CIKs the later entry overwrites the earlier one. -/
def companyLookup (companies : List Company) (cik : Str) : Option Company :=
  companies.reverse.find? (fun c => c.cik == cik)

/-- The record-building loop of `create_final_dataset` (rows whose result
is not successful are skipped). -/
def buildRecords (nrs : List NormResult) (companies : List Company)
    (now : Str) : List OutRecord :=
  nrs.filterMap (fun r =>
    if r.success then
      let ci := companyLookup companies r.cik
      some { cik := r.cik,
             ticker := ((ci.bind (fun c => c.ticker)).getD r.cik),
             company_name := ((ci.bind (fun c => c.company_name)).getD r.cik),
             period_end := natToStr r.year ++ S "-12-31",
             form_type := r.form_type,
             transfer_agent_raw := r.transfer_agent_raw,
             transfer_agent_clean := r.transfer_agent_clean,
             filing_url := r.file_path,
             retrieved_at := now }
    else none)

/-- The sort key of `df.sort_values(['cik', 'period_end', 'form_type'])`
(ascending lexicographic over the three columns). -/
def cfdLe (a b : OutRecord) : Bool :=
  ltStr a.cik b.cik ||
    (a.cik == b.cik &&
      (ltStr a.period_end b.period_end ||
        (a.period_end == b.period_end && leStr a.form_type b.form_type)))

/-- The same sort key on records without the time stamp. -/
def cfdLeBase (a b : OutRecordBase) : Bool :=
  ltStr a.cik b.cik ||
    (a.cik == b.cik &&
      (ltStr a.period_end b.period_end ||
        (a.period_end == b.period_end && leStr a.form_type b.form_type)))

/-- `create_final_dataset` (minus the CSV write, an external effect): build
the records at wall-clock time `now` and sort them. -/
def create_final_dataset (nrs : List NormResult) (companies : List Company)
    (now : Str) : List OutRecord :=
  sortValues cfdLe (buildRecords nrs companies now)

/-!
Aggregator, mention-based variant (`SEC10KAnalyzer.calculate_market_share`
in `sec_10k_analysis.py`): keep the latest mention per CIK (pandas
`idxmax` on the date parsed from the accession prefix — the parsed date is
the `date` field of the model), count brands (`value_counts`: counts
descending), and attach `count / total * 100` rounded to two decimals.
-/

/-- One mention row as seen by `calculate_market_share`; `date` is the
timestamp parsed from the first 8 characters of the accession. -/
structure MSMention where
  cik : Str
  date : Nat
  brand : Str
deriving DecidableEq

/-- The distinct CIKs in ascending order (pandas `groupby` sorts its
keys). -/
def distinctCiksSorted (ms : List MSMention) : List Str :=
  sortValues leStr (dedupFirst id [] (ms.map (fun r => r.cik)))

/-- `df.loc[df.groupby('cik')['date'].idxmax()]`: per distinct CIK, the
first row attaining that CIK's maximum date. -/
def latest_per_cik (ms : List MSMention) : List MSMention :=
  (distinctCiksSorted ms).filterMap
    (fun c => idxmaxBy (fun r => r.date) (ms.filter (fun r => r.cik == c)))

/-- Pandas `Series.value_counts()`: occurrence counts per distinct value,
sorted descending by count (distinct values taken in first-appearance
order, the sort being stable). -/
def valueCounts (l : List Str) : List (Str × Nat) :=
  sortValues (fun a b => b.2 ≤ a.2)
    ((dedupFirst id [] l).map (fun b => (b, l.count b)))

/-- `calculate_market_share` (minus the CSV write): rows
`(brand, issuer count, market-share percentage)`. -/
def calculate_market_share (ms : List MSMention) : List (Str × Nat × ℚ) :=
  let latest := latest_per_cik ms
  let vc := valueCounts (latest.map (fun r => r.brand))
  let total : Nat := (vc.map (fun p => p.2)).sum
  vc.map (fun p => (p.1, p.2, round2 ((p.2 : ℚ) / (total : ℚ) * 100)))

/-!
Concrete test vectors from the specification's testable properties.
-/

/-- The two-row evidence of the temporal-resolution test vector. -/
def rowsC2 : List TARow :=
  [ ⟨S "2021-01-01", S "10-K", some (S "Computershare")⟩,
    ⟨S "2023-06-01", S "10-K", some (S "Broadridge")⟩ ]

/-- The timeline `[A, A, UNKNOWN, B, B, A]` of the change-detection test
vector. -/
def rowsC3 : List TARow :=
  [ ⟨S "2018-12-31", S "10-K", some (S "A")⟩,
    ⟨S "2019-12-31", S "10-K", some (S "A")⟩,
    ⟨S "2020-12-31", S "10-K", some (S "UNKNOWN")⟩,
    ⟨S "2021-12-31", S "10-K", some (S "B")⟩,
    ⟨S "2022-12-31", S "10-K", some (S "B")⟩,
    ⟨S "2023-12-31", S "10-K", some (S "A")⟩ ]

/-- A same-date tie between two registrations for one CIK: row `A` is
ingested first, row `B` last. -/
def regsTie : List Reg := [⟨S "1", S "A", 5⟩, ⟨S "1", S "B", 5⟩]

/-- The aggregation test vector: subjects `{1: X, 2: X, 3: Y}`. -/
def msEx : List MSMention :=
  [⟨S "1", 10, S "X"⟩, ⟨S "2", 10, S "X"⟩, ⟨S "3", 10, S "Y"⟩]

/-- One successful normalisation result, for the idempotence
counterexample. -/
def nrEx : NormResult :=
  ⟨true, S "1", 2020, S "10-K", some (S "Computershare"),
   some (S "Computershare"), S "f"⟩

/-- A mention of the deduplication test vector. -/
def mentionEx1 : Mention :=
  ⟨S "TESTCIK", S "TESTACCESSION", S "Computershare",
   S "Computershare is our transfer agent and registrar.", S "t.htm",
   S "p1"⟩

/-- The same fact matched again (second strategy / repeated sentence):
identical brand and context, hence the same deduplication key. -/
def mentionEx2 : Mention :=
  ⟨S "TESTCIK", S "TESTACCESSION", S "Computershare",
   S "Computershare is our transfer agent and registrar.", S "t.htm",
   S "p2"⟩

/-!
Helper lemmas about the stable sort.
-/

theorem mem_insertSorted {α : Type} (le : α → α → Bool) (a x : α) :
    ∀ l : List α, x ∈ insertSorted le a l ↔ x = a ∨ x ∈ l := by
  intro l
  induction l with
  | nil => simp [insertSorted]
  | cons b bs ih =>
    by_cases h : le a b = true
    · simp [insertSorted, if_pos h]
    · simp only [insertSorted, if_neg h, List.mem_cons, ih]
      tauto

theorem perm_insertSorted {α : Type} (le : α → α → Bool) (a : α) :
    ∀ l : List α, (insertSorted le a l).Perm (a :: l) := by
  intro l
  induction l with
  | nil => simp [insertSorted]
  | cons b bs ih =>
    by_cases h : le a b = true
    · rw [insertSorted, if_pos h]
    · rw [insertSorted, if_neg h]
      exact (ih.cons b).trans (List.Perm.swap a b bs)

theorem perm_sortValues {α : Type} (le : α → α → Bool) :
    ∀ l : List α, (sortValues le l).Perm l := by
  intro l
  induction l with
  | nil => simp [sortValues]
  | cons a t ih =>
    have : sortValues le (a :: t) = insertSorted le a (sortValues le t) := rfl
    rw [this]
    exact (perm_insertSorted le a (sortValues le t)).trans (ih.cons a)

theorem mem_sortValues {α : Type} (le : α → α → Bool) (l : List α) (x : α) :
    x ∈ sortValues le l ↔ x ∈ l :=
  (perm_sortValues le l).mem_iff

theorem pairwise_insertSorted {α : Type} (le : α → α → Bool)
    (htot : ∀ a b, le a b = true ∨ le b a = true)
    (htrans : ∀ a b c, le a b = true → le b c = true → le a c = true)
    (a : α) : ∀ l : List α, l.Pairwise (fun x y => le x y = true) →
      (insertSorted le a l).Pairwise (fun x y => le x y = true) := by
  intro l
  induction l with
  | nil => simp [insertSorted]
  | cons b bs ih =>
    intro hp
    rcases List.pairwise_cons.1 hp with ⟨hb, hbs⟩
    by_cases h : le a b = true
    · rw [insertSorted, if_pos h]
      refine List.pairwise_cons.2 ⟨?_, hp⟩
      intro y hy
      rcases List.mem_cons.1 hy with rfl | hy
      · exact h
      · exact htrans a b y h (hb y hy)
    · rw [insertSorted, if_neg h]
      refine List.pairwise_cons.2 ⟨?_, ih hbs⟩
      intro y hy
      rcases (mem_insertSorted le a y bs).1 hy with h2 | hy
      · subst h2
        rcases htot y b with h1 | h1
        · exact absurd h1 h
        · exact h1
      · exact hb y hy

theorem pairwise_sortValues {α : Type} (le : α → α → Bool)
    (htot : ∀ a b, le a b = true ∨ le b a = true)
    (htrans : ∀ a b c, le a b = true → le b c = true → le a c = true)
    (l : List α) : (sortValues le l).Pairwise (fun x y => le x y = true) := by
  induction l with
  | nil => simp [sortValues]
  | cons a t ih => exact pairwise_insertSorted le htot htrans a _ ih

theorem map_insertSorted {α β : Type} (f : α → β) (le : α → α → Bool)
    (le' : β → β → Bool) (h : ∀ a b, le a b = le' (f a) (f b)) (a : α) :
    ∀ l : List α, (insertSorted le a l).map f = insertSorted le' (f a) (l.map f) := by
  intro l
  induction l with
  | nil => rfl
  | cons b bs ih =>
    show ((if le a b then a :: b :: bs else b :: insertSorted le a bs).map f) =
      (if le' (f a) (f b) then f a :: f b :: bs.map f
       else f b :: insertSorted le' (f a) (bs.map f))
    rw [← h a b]
    by_cases hc : le a b = true
    · rw [if_pos hc, if_pos hc]
      rfl
    · rw [if_neg hc, if_neg hc, List.map_cons, ih]

theorem map_sortValues {α β : Type} (f : α → β) (le : α → α → Bool)
    (le' : β → β → Bool) (h : ∀ a b, le a b = le' (f a) (f b)) :
    ∀ l : List α, (sortValues le l).map f = sortValues le' (l.map f) := by
  intro l
  induction l with
  | nil => rfl
  | cons a t ih =>
    have h1 : sortValues le (a :: t) = insertSorted le a (sortValues le t) := rfl
    have h2 : sortValues le' (f a :: t.map f) =
        insertSorted le' (f a) (sortValues le' (t.map f)) := rfl
    rw [h1, map_insertSorted f le le' h, ih, List.map_cons, h2]

/-!
Order lemmas for the lexicographic string order.
-/

theorem ltStr_irrefl : ∀ a : Str, ltStr a a = false := by
  intro a
  induction a with
  | nil => rfl
  | cons c cs ih =>
    simp only [ltStr, ih, Bool.and_false, Bool.or_false,
      decide_eq_false_iff_not]
    exact lt_irrefl c

theorem ltStr_trans :
    ∀ a b c : Str, ltStr a b = true → ltStr b c = true → ltStr a c = true := by
  intro a
  induction a with
  | nil =>
    intro b c hab hbc
    cases b with
    | nil => cases hab
    | cons y ys =>
      cases c with
      | nil => cases hbc
      | cons z zs => rfl
  | cons x xs ih =>
    intro b c hab hbc
    cases b with
    | nil => cases hab
    | cons y ys =>
      cases c with
      | nil => cases hbc
      | cons z zs =>
        simp only [ltStr, Bool.or_eq_true, Bool.and_eq_true,
          decide_eq_true_eq, beq_iff_eq] at hab hbc ⊢
        rcases hab with hxy | ⟨rfl, hxs⟩
        · rcases hbc with hyz | ⟨rfl, hys⟩
          · exact Or.inl (lt_trans hxy hyz)
          · exact Or.inl hxy
        · rcases hbc with hyz | ⟨rfl, hys⟩
          · exact Or.inl hyz
          · exact Or.inr ⟨rfl, ih ys zs hxs hys⟩

theorem ltStr_trichotomy :
    ∀ a b : Str, ltStr a b = true ∨ a = b ∨ ltStr b a = true := by
  intro a
  induction a with
  | nil =>
    intro b
    cases b with
    | nil => exact Or.inr (Or.inl rfl)
    | cons y ys => exact Or.inl rfl
  | cons x xs ih =>
    intro b
    cases b with
    | nil => exact Or.inr (Or.inr rfl)
    | cons y ys =>
      rcases lt_trichotomy x y with hxy | rfl | hyx
      · refine Or.inl ?_
        simp [ltStr, hxy]
      · rcases ih ys with h | h | h
        · refine Or.inl ?_
          simp [ltStr, h]
        · exact Or.inr (Or.inl (by rw [h]))
        · refine Or.inr (Or.inr ?_)
          simp [ltStr, h]
      · refine Or.inr (Or.inr ?_)
        simp [ltStr, hyx]

theorem ltStr_asymm (a b : Str) (h1 : ltStr a b = true) : ltStr b a = false := by
  by_contra hc
  simp only [Bool.not_eq_false] at hc
  have := ltStr_trans a b a h1 hc
  rw [ltStr_irrefl a] at this
  cases this

theorem leStr_total : ∀ a b : Str, leStr a b = true ∨ leStr b a = true := by
  intro a b
  by_cases h : ltStr b a = true
  · right
    unfold leStr
    rw [ltStr_asymm b a h]
    rfl
  · left
    unfold leStr
    simp only [Bool.not_eq_true] at h
    rw [h]
    rfl

theorem leStr_trans :
    ∀ a b c : Str, leStr a b = true → leStr b c = true → leStr a c = true := by
  intro a b c hab hbc
  unfold leStr at hab hbc ⊢
  simp only [Bool.not_eq_true', Bool.not_eq_true] at hab hbc ⊢
  by_contra hc
  simp only [Bool.not_eq_false] at hc
  rcases ltStr_trichotomy a b with h | rfl | h
  · have := ltStr_trans c a b hc h
    rw [hbc] at this
    cases this
  · rw [hbc] at hc
    cases hc
  · rw [hab] at h
    cases h

theorem ltStr_of_leStr_of_ne (a b : Str) (h1 : leStr a b = true) (h2 : a ≠ b) :
    ltStr a b = true := by
  rcases ltStr_trichotomy a b with h | h | h
  · exact h
  · exact absurd h h2
  · unfold leStr at h1
    rw [h] at h1
    cases h1

/-!
Lemmas about first-occurrence deduplication.
-/

theorem sublist_dedupFirst {α β : Type} [DecidableEq β] (key : α → β) :
    ∀ (l : List α) (seen : List β), List.Sublist (dedupFirst key seen l) l := by
  intro l
  induction l with
  | nil =>
    intro seen
    simp [dedupFirst]
  | cons a rest ih =>
    intro seen
    by_cases h : key a ∈ seen
    · rw [dedupFirst, if_pos h]
      exact List.Sublist.cons a (ih seen)
    · rw [dedupFirst, if_neg h]
      exact List.Sublist.cons₂ a (ih (key a :: seen))

theorem dedupFirst_mem_spec {α β : Type} [DecidableEq β] (key : α → β) :
    ∀ (l : List α) (seen : List β) (m : α), m ∈ dedupFirst key seen l →
      key m ∉ seen ∧ l.find? (fun x => decide (key x = key m)) = some m := by
  intro l
  induction l with
  | nil =>
    intro seen m hm
    simp [dedupFirst] at hm
  | cons a rest ih =>
    intro seen m hm
    by_cases h : key a ∈ seen
    · rw [dedupFirst, if_pos h] at hm
      rcases ih seen m hm with ⟨hns, hf⟩
      have hne : key a ≠ key m := fun he => hns (he ▸ h)
      constructor
      · exact hns
      · have hstep : List.find? (fun x => decide (key x = key m)) (a :: rest) =
            List.find? (fun x => decide (key x = key m)) rest := by
          simp [List.find?_cons, hne]
        rw [hstep]
        exact hf
    · rw [dedupFirst, if_neg h] at hm
      rcases List.mem_cons.1 hm with rfl | hm2
      · constructor
        · exact h
        · rw [List.find?_cons]
          simp
      · rcases ih (key a :: seen) m hm2 with ⟨hns, hf⟩
        have hna : key m ≠ key a := fun he => hns (by rw [he]; exact List.mem_cons_self _ _)
        constructor
        · exact fun hs => hns (List.mem_cons_of_mem _ hs)
        · have hne2 : key a ≠ key m := fun he => hna he.symm
          have hstep : List.find? (fun x => decide (key x = key m)) (a :: rest) =
              List.find? (fun x => decide (key x = key m)) rest := by
            simp [List.find?_cons, hne2]
          rw [hstep]
          exact hf

theorem dedupFirst_pairwise {α β : Type} [DecidableEq β] (key : α → β) :
    ∀ (l : List α) (seen : List β),
      (dedupFirst key seen l).Pairwise (fun x y => key x ≠ key y) := by
  intro l
  induction l with
  | nil =>
    intro seen
    simp [dedupFirst]
  | cons a rest ih =>
    intro seen
    by_cases h : key a ∈ seen
    · rw [dedupFirst, if_pos h]
      exact ih seen
    · rw [dedupFirst, if_neg h]
      refine List.pairwise_cons.2 ⟨?_, ih (key a :: seen)⟩
      intro y hy
      have := (dedupFirst_mem_spec key rest (key a :: seen) y hy).1
      exact fun he => this (he ▸ List.mem_cons_self _ _)

theorem dedupFirst_nil_of_covered {α β : Type} [DecidableEq β] (key : α → β) :
    ∀ (l : List α) (seen : List β), (∀ m ∈ l, key m ∈ seen) →
      dedupFirst key seen l = [] := by
  intro l
  induction l with
  | nil =>
    intro seen _
    rfl
  | cons a rest ih =>
    intro seen hcov
    rw [dedupFirst, if_pos (hcov a (List.mem_cons_self a rest))]
    exact ih seen (fun m hm => hcov m (List.mem_cons_of_mem a hm))

theorem dedupFirst_append_covered {α β : Type} [DecidableEq β] (key : α → β) :
    ∀ (l1 l2 : List α) (seen : List β),
      (∀ m ∈ l2, key m ∈ seen ∨ ∃ m1 ∈ l1, key m1 = key m) →
      dedupFirst key seen (l1 ++ l2) = dedupFirst key seen l1 := by
  intro l1
  induction l1 with
  | nil =>
    intro l2 seen hcov
    rw [List.nil_append, dedupFirst]
    refine dedupFirst_nil_of_covered key l2 seen ?_
    intro m hm
    rcases hcov m hm with h | ⟨m1, hm1, _⟩
    · exact h
    · simp at hm1
  | cons a l1 ih =>
    intro l2 seen hcov
    by_cases h : key a ∈ seen
    · rw [List.cons_append, dedupFirst, if_pos h, dedupFirst, if_pos h]
      refine ih l2 seen ?_
      intro m hm
      rcases hcov m hm with hs | ⟨m1, hm1, hk⟩
      · exact Or.inl hs
      · rcases List.mem_cons.1 hm1 with rfl | hm1'
        · exact Or.inl (hk ▸ h)
        · exact Or.inr ⟨m1, hm1', hk⟩
    · rw [List.cons_append, dedupFirst, if_neg h, dedupFirst, if_neg h]
      congr 1
      refine ih l2 (key a :: seen) ?_
      intro m hm
      rcases hcov m hm with hs | ⟨m1, hm1, hk⟩
      · exact Or.inl (List.mem_cons_of_mem _ hs)
      · rcases List.mem_cons.1 hm1 with rfl | hm1'
        · exact Or.inl (hk ▸ List.mem_cons_self _ _)
        · exact Or.inr ⟨m1, hm1', hk⟩

theorem mem_dedupFirst_id {α : Type} [DecidableEq α] :
    ∀ (l : List α) (seen : List α) (x : α),
      x ∈ dedupFirst id seen l ↔ (x ∈ l ∧ x ∉ seen) := by
  intro l
  induction l with
  | nil =>
    intro seen x
    simp [dedupFirst]
  | cons a rest ih =>
    intro seen x
    by_cases h : (id a : α) ∈ seen
    · rw [dedupFirst, if_pos h, ih]
      simp only [id] at h
      constructor
      · rintro ⟨h1, h2⟩
        exact ⟨List.mem_cons_of_mem a h1, h2⟩
      · rintro ⟨h1, h2⟩
        rcases List.mem_cons.1 h1 with rfl | h1'
        · exact absurd h h2
        · exact ⟨h1', h2⟩
    · rw [dedupFirst, if_neg h]
      simp only [id] at h
      constructor
      · intro hx
        rcases List.mem_cons.1 hx with rfl | hx'
        · exact ⟨List.mem_cons_self _ _, h⟩
        · rcases (ih (a :: seen) x).1 hx' with ⟨h1, h2⟩
          exact ⟨List.mem_cons_of_mem a h1,
            fun hs => h2 (List.mem_cons_of_mem a hs)⟩
      · rintro ⟨h1, h2⟩
        rcases List.mem_cons.1 h1 with rfl | h1'
        · exact List.mem_cons_self _ _
        · by_cases hxa : x = a
          · subst hxa
            exact List.mem_cons_self _ _
          · refine List.mem_cons_of_mem a ((ih (a :: seen) x).2 ⟨h1', ?_⟩)
            intro hs
            rcases List.mem_cons.1 hs with h3 | h3
            · exact hxa h3
            · exact h2 h3

/-!
The `idxmax` scan returns the first row attaining the maximum.
-/

theorem idxmax_fold_spec {α : Type} (keyOf : α → Nat) :
    ∀ (l : List α) (m : α), ∃ r, l.foldl (idxmaxStep keyOf) (some m) = some r ∧
      keyOf m ≤ keyOf r ∧ (∀ x ∈ l, keyOf x ≤ keyOf r) ∧
      (r = m ∨ ∃ l1 l2, l = l1 ++ r :: l2 ∧ keyOf m < keyOf r ∧
        ∀ x ∈ l1, keyOf x < keyOf r) := by
  intro l
  induction l with
  | nil =>
    intro m
    exact ⟨m, rfl, le_refl _, by simp, Or.inl rfl⟩
  | cons a t ih =>
    intro m
    by_cases h : keyOf m < keyOf a
    · have hstep : idxmaxStep keyOf (some m) a = some a := by
        rw [idxmaxStep, if_pos h]
      rcases ih a with ⟨r, hr, hmr, hall, hpos⟩
      refine ⟨r, ?_, ?_, ?_, ?_⟩
      · rw [List.foldl_cons, hstep]
        exact hr
      · omega
      · intro x hx
        rcases List.mem_cons.1 hx with rfl | hx'
        · exact hmr
        · exact hall x hx'
      · rcases hpos with rfl | ⟨l1, l2, hdec, hlt, hbefore⟩
        · exact Or.inr ⟨[], t, rfl, h, by simp⟩
        · refine Or.inr ⟨a :: l1, l2, by rw [hdec]; rfl, by omega, ?_⟩
          intro x hx
          rcases List.mem_cons.1 hx with rfl | hx'
          · omega
          · exact hbefore x hx'
    · have hstep : idxmaxStep keyOf (some m) a = some m := by
        rw [idxmaxStep, if_neg h]
      rcases ih m with ⟨r, hr, hmr, hall, hpos⟩
      refine ⟨r, ?_, hmr, ?_, ?_⟩
      · rw [List.foldl_cons, hstep]
        exact hr
      · intro x hx
        rcases List.mem_cons.1 hx with rfl | hx'
        · omega
        · exact hall x hx'
      · rcases hpos with rfl | ⟨l1, l2, hdec, hlt, hbefore⟩
        · exact Or.inl rfl
        · refine Or.inr ⟨a :: l1, l2, by rw [hdec]; rfl, hlt, ?_⟩
          intro x hx
          rcases List.mem_cons.1 hx with rfl | hx'
          · omega
          · exact hbefore x hx'

theorem idxmaxBy_spec {α : Type} (keyOf : α → Nat) (l : List α) (h : l ≠ []) :
    ∃ r, idxmaxBy keyOf l = some r ∧ r ∈ l ∧
      (∀ x ∈ l, keyOf x ≤ keyOf r) ∧
      ∃ l1 l2, l = l1 ++ r :: l2 ∧ ∀ x ∈ l1, keyOf x < keyOf r := by
  cases l with
  | nil => exact absurd rfl h
  | cons a t =>
    rcases idxmax_fold_spec keyOf t a with ⟨r, hr, hmr, hall, hpos⟩
    have hfold : idxmaxBy keyOf (a :: t) = t.foldl (idxmaxStep keyOf) (some a) := rfl
    rcases hpos with rfl | ⟨l1, l2, hdec, hlt, hbefore⟩
    · refine ⟨r, by rw [hfold]; exact hr, List.mem_cons_self _ _, ?_, [], t, rfl, by simp⟩
      intro x hx
      rcases List.mem_cons.1 hx with rfl | hx'
      · exact le_refl _
      · exact hall x hx'
    · refine ⟨r, by rw [hfold]; exact hr, ?_, ?_, a :: l1, l2, by rw [hdec]; rfl, ?_⟩
      · exact List.mem_cons_of_mem a (hdec ▸ List.mem_append_right l1 (List.mem_cons_self r l2))
      · intro x hx
        rcases List.mem_cons.1 hx with rfl | hx'
        · omega
        · exact hall x hx'
      · intro x hx
        rcases List.mem_cons.1 hx with rfl | hx'
        · omega
        · exact hbefore x hx'

/-!
The best-match scan returns a maximal score.
-/

theorem bestMatch_fold_le (query : Str) (scorer : Str → Str → ℚ) :
    ∀ (l : List Str) (p : Str × ℚ) (b : Str) (s : ℚ),
      l.foldl (bmStep query scorer) (some p) = some (b, s) →
      p.2 ≤ s ∧ ∀ c ∈ l, scorer query c ≤ s := by
  intro l
  induction l with
  | nil =>
    intro p b s h
    rw [List.foldl_nil] at h
    cases h
    exact ⟨le_refl _, by simp⟩
  | cons c t ih =>
    intro p b s h
    rw [List.foldl_cons] at h
    by_cases hc : p.2 < scorer query c
    · rw [show bmStep query scorer (some p) c = some (c, scorer query c) from by
        rw [bmStep, if_pos hc]] at h
      rcases ih (c, scorer query c) b s h with ⟨h1, h2⟩
      refine ⟨le_of_lt (lt_of_lt_of_le hc h1), ?_⟩
      intro x hx
      rcases List.mem_cons.1 hx with rfl | hx'
      · exact h1
      · exact h2 x hx'
    · rw [show bmStep query scorer (some p) c = some p from by
        rw [bmStep, if_neg hc]] at h
      rcases ih p b s h with ⟨h1, h2⟩
      refine ⟨h1, ?_⟩
      intro x hx
      rcases List.mem_cons.1 hx with rfl | hx'
      · exact le_trans (le_of_not_lt hc) h1
      · exact h2 x hx'

theorem bestMatch_le (query : Str) (scorer : Str → Str → ℚ) (l : List Str)
    (b : Str) (s : ℚ) (h : bestMatch query l scorer = some (b, s)) :
    ∀ c ∈ l, scorer query c ≤ s := by
  cases l with
  | nil => cases h
  | cons c t =>
    have hfold : bestMatch query (c :: t) scorer =
        t.foldl (bmStep query scorer) (some (c, scorer query c)) := rfl
    rw [hfold] at h
    rcases bestMatch_fold_le query scorer t (c, scorer query c) b s h with ⟨h1, h2⟩
    intro x hx
    rcases List.mem_cons.1 hx with rfl | hx'
    · exact h1
    · exact h2 x hx'

/-!
`find?` returns the first matching element.
-/

theorem find?_first {β : Type} (p : β → Bool) :
    ∀ (l : List β) (i : Nat) (hi : i < l.length),
      p (l.get ⟨i, hi⟩) = true →
      (∀ j (hj : j < i), p (l.get ⟨j, Nat.lt_trans hj hi⟩) = false) →
      l.find? p = some (l.get ⟨i, hi⟩) := by
  intro l
  induction l with
  | nil =>
    intro i hi
    exact absurd hi (by simp)
  | cons a t ih =>
    intro i hi hp hfirst
    cases i with
    | zero =>
      simp only [List.get] at hp
      simp [List.find?_cons, hp]
    | succ i =>
      have h0 : p a = false := hfirst 0 (Nat.succ_pos i)
      have hi' : i < t.length := Nat.lt_of_succ_lt_succ hi
      have hstep : (a :: t).find? p = t.find? p := by
        simp [List.find?_cons, h0]
      rw [hstep]
      exact ih i hi' hp (fun j hj => hfirst (j + 1) (Nat.succ_lt_succ hj))

/-!
The change scan emits exactly the adjacent differing pairs.
-/

theorem adjacentChanges_cons_cons (x y : Str) (L : List Str) :
    adjacentChanges (x :: y :: L) =
      (if x = y then [] else [(x, y)]) ++ adjacentChanges (y :: L) := by
  rw [adjacentChanges, adjacentChanges]
  simp only [List.tail_cons, List.zip_cons_cons, List.filter_cons]
  by_cases h : x = y
  · subst h
    simp
  · simp [h]

theorem changesLoop_spec :
    ∀ (l : List HistEntry) (cur : Str),
      (changesLoop cur l).map (fun c => (c.from_agent, c.to_agent)) =
        adjacentChanges (cur :: l.map (fun e => e.agent)) := by
  intro l
  induction l with
  | nil =>
    intro cur
    rfl
  | cons e rest ih =>
    intro cur
    by_cases h : (e.agent == cur : Bool) = true
    · have he : e.agent = cur := by simpa using h
      rw [changesLoop, if_pos h, ih cur]
      simp only [List.map_cons]
      rw [adjacentChanges_cons_cons, he]
      simp
    · have he : ¬ (cur = e.agent) := by
        intro hc
        exact h (by simp [hc])
      rw [changesLoop, if_neg h]
      simp only [List.map_cons]
      rw [ih e.agent, adjacentChanges_cons_cons, if_neg he]
      rfl

/-!
The built dataset rows differ only in the `retrieved_at` column across two
wall-clock times.
-/

theorem buildRecords_dropRetrievedAt (nrs : List NormResult)
    (companies : List Company) (t1 t2 : Str) :
    (buildRecords nrs companies t1).map dropRetrievedAt =
      (buildRecords nrs companies t2).map dropRetrievedAt := by
  induction nrs with
  | nil => rfl
  | cons r rest ih =>
    rw [buildRecords, buildRecords, List.filterMap_cons, List.filterMap_cons]
    by_cases h : r.success = true
    · rw [if_pos h, if_pos h]
      simp only [List.map_cons]
      exact List.cons_eq_cons.2 ⟨rfl, ih⟩
    · rw [if_neg h, if_neg h]
      exact ih

/-!
`brand_of` is first-match-wins over the ordered rule list.
-/

theorem brand_of_eq_findRule (e : Str) :
    brand_of (some e) =
      (match brandRules.find? (fun r => r.1 (lowerStr e)) with
       | some r => some r.2
       | none => some e) := by
  rw [brand_of, brandRules]
  simp only [Option.getD_some, List.find?_cons]
  cases h1 : containsStr (lowerStr e) (S "computershare")
  case true => simp [h1]
  case false =>
  cases h2 : containsStr (lowerStr e) (S "state street")
  case true => simp [h1, h2]
  case false =>
  cases h3 : (containsStr (lowerStr e) (S "bny mellon") ||
      containsStr (lowerStr e) (S "pershing") ||
      containsStr (lowerStr e) (S "jpmorgan"))
  case true => simp [h1, h2, h3]
  case false =>
  cases h4 : containsStr (lowerStr e) (S "equiniti")
  case true => simp [h1, h2, h3, h4]
  case false =>
  cases h5 : containsStr (lowerStr e) (S "fidelity")
  case true => simp [h1, h2, h3, h4, h5]
  case false =>
  cases h6 : containsStr (lowerStr e) (S "vanguard")
  case true => simp [h1, h2, h3, h4, h5, h6]
  case false =>
  cases h7 : (containsStr (lowerStr e) (S "american funds") ||
      containsStr (lowerStr e) (S "capital group"))
  case true => simp [h1, h2, h3, h4, h5, h6, h7]
  case false =>
  by_cases h8 : startsWithStr (lowerStr e) (S "dst ") = true
  · simp [h8]
  · rw [Bool.not_eq_true] at h8
    simp [h8]

/-!
Helper lemmas for the mention-based aggregation.
-/

theorem filterMap_map_eq {α γ : Type} (cs : List γ) (f : γ → Option α)
    (g : α → γ) (h : ∀ c ∈ cs, ∃ r, f c = some r ∧ g r = c) :
    (cs.filterMap f).map g = cs := by
  induction cs with
  | nil => rfl
  | cons c t ih =>
    rcases h c (List.mem_cons_self c t) with ⟨r, hr, hg⟩
    rw [List.filterMap_cons, hr, List.map_cons, hg,
      ih (fun x hx => h x (List.mem_cons_of_mem c hx))]

theorem latest_per_cik_map_cik (ms : List MSMention) :
    (latest_per_cik ms).map (fun r => r.cik) = distinctCiksSorted ms := by
  rw [latest_per_cik]
  refine filterMap_map_eq _ _ _ ?_
  intro c hc
  have hc2 : c ∈ ms.map (fun r => r.cik) := by
    have h1 := (mem_sortValues leStr _ c).1 hc
    exact ((mem_dedupFirst_id _ [] c).1 h1).1
  rcases List.mem_map.1 hc2 with ⟨row, hrow, hrc⟩
  have hne : ms.filter (fun r => r.cik == c) ≠ [] := by
    intro hnil
    have : row ∈ ms.filter (fun r => r.cik == c) :=
      List.mem_filter.2 ⟨hrow, by simp [hrc]⟩
    rw [hnil] at this
    cases this
  rcases idxmaxBy_spec (fun r => r.date) _ hne with ⟨r, hr, hrmem, _, _⟩
  refine ⟨r, hr, ?_⟩
  have := (List.mem_filter.1 hrmem).2
  simpa using this

theorem count_instance_bridge (b : Str) (l : List Str) :
    l.count b = @List.count Str instBEqOfDecidableEq b l := by
  induction l with
  | nil => rfl
  | cons x t ih =>
    rw [List.count_cons, @List.count_cons Str instBEqOfDecidableEq, ih]
    by_cases h : x = b
    · subst h
      simp
    · have h1 : (x == b) = false := by simpa using h
      have h2 : (@BEq.beq Str instBEqOfDecidableEq x b) = false := by
        simpa using h
      rw [h1, h2]

theorem sum_counts_dedupFirst (l : List Str) :
    ((dedupFirst id ([] : List Str) l).map (fun b => l.count b)).sum = l.length := by
  have nd1 : (dedupFirst id ([] : List Str) l).Nodup :=
    (dedupFirst_pairwise id l []).imp (fun h => h)
  have nd2 : l.dedup.Nodup := List.nodup_dedup l
  have hperm : (dedupFirst id ([] : List Str) l).Perm l.dedup := by
    refine (List.perm_ext_iff_of_nodup nd1 nd2).2 ?_
    intro a
    rw [mem_dedupFirst_id, List.mem_dedup]
    simp
  rw [(hperm.map (fun b => l.count b)).sum_eq]
  have hfun : (fun b => l.count b) = (fun b => @List.count Str instBEqOfDecidableEq b l) := by
    funext b
    exact count_instance_bridge b l
  rw [hfun]
  exact List.sum_map_count_dedup_eq_length l

theorem sum_valueCounts (l : List Str) :
    ((valueCounts l).map (fun p => p.2)).sum = l.length := by
  rw [valueCounts]
  have hperm := (perm_sortValues (fun a b : Str × Nat => decide (b.2 ≤ a.2))
      ((dedupFirst id [] l).map (fun b => (b, l.count b)))).map
      (fun p : Str × Nat => p.2)
  rw [hperm.sum_eq, List.map_map]
  exact sum_counts_dedupFirst l

theorem mem_valueCounts (l : List Str) (q : Str × Nat) (hq : q ∈ valueCounts l) :
    q.2 = l.count q.1 := by
  rw [valueCounts] at hq
  have := (mem_sortValues _ _ q).1 hq
  rcases List.mem_map.1 this with ⟨b, _, hb⟩
  rw [← hb]

/-!
The claims.
-/

/-- C1 (counterexample): `create_final_dataset` is not idempotent as
stated — the `retrieved_at` column records the wall-clock time of the run,
so two runs over the same normalisation results and companies differ. -/
theorem claim_C1_counterexample :
    ¬ (create_final_dataset [nrEx] [] (S "2025-01-01 00:00:00") =
        create_final_dataset [nrEx] [] (S "2025-01-01 00:00:01")) := by
  decide

/-- C1 (amended): with the `retrieved_at` wall-clock column removed, two
runs of `create_final_dataset` over the same normalisation results and
companies produce identical tables (same rows, same sort order, same
tie-breaks). -/
theorem claim_C1_amended (nrs : List NormResult) (companies : List Company)
    (t1 t2 : Str) :
    (create_final_dataset nrs companies t1).map dropRetrievedAt =
      (create_final_dataset nrs companies t2).map dropRetrievedAt := by
  rw [create_final_dataset, create_final_dataset,
    map_sortValues dropRetrievedAt cfdLe cfdLeBase (fun a b => rfl),
    map_sortValues dropRetrievedAt cfdLe cfdLeBase (fun a b => rfl),
    buildRecords_dropRetrievedAt nrs companies t1 t2]

/-- C2 (counterexample): when two evidence rows for one subject share the
maximum observation date, `MarketShare.py`'s `idxmax` designates the
FIRST-ingested row (`A`), not the most recently ingested one (`B`, the
last row of the evidence, which also attains the maximum date). -/
theorem claim_C2_counterexample :
    currentRegOf regsTie = some ⟨S "1", S "A", 5⟩
    ∧ regsTie.getLast? = some ⟨S "1", S "B", 5⟩
    ∧ (⟨S "1", S "B", 5⟩ : Reg).filing_date = 5
    ∧ (∀ r ∈ regsTie, r.filing_date ≤ 5)
    ∧ (⟨S "1", S "A", 5⟩ : Reg) ≠ (⟨S "1", S "B", 5⟩ : Reg) := by
  decide

/-- C2 (amended): for every non-empty evidence set for one subject the
designated current state attains the maximum observation date, and when
several rows share that maximum the tie is broken by taking the FIRST
(earliest-ingested) such row — pandas `idxmax` first-occurrence
semantics; on the concrete vector
`[(2021-01-01, Computershare), (2023-06-01, Broadridge)]` the pipeline's
current agent is `Broadridge` and the timeline has exactly the 2 entries
in ascending date order. -/
theorem claim_C2_amended (rows : List Reg) (h : rows ≠ []) :
    (∃ r, currentRegOf rows = some r ∧ r ∈ rows ∧
      (∀ x ∈ rows, x.filing_date ≤ r.filing_date) ∧
      ∃ l1 l2, rows = l1 ++ r :: l2 ∧ ∀ x ∈ l1, x.filing_date < r.filing_date)
    ∧ current_agent rowsC2 = some (S "Broadridge")
    ∧ (agent_history rowsC2).map (fun e => e.period) =
        [S "2021-01-01", S "2023-06-01"]
    ∧ ltStr (S "2021-01-01") (S "2023-06-01") = true := by
  refine ⟨?_, by decide, by decide, by decide⟩
  exact idxmaxBy_spec (fun r => r.filing_date) rows h

/-- C2 (witness). -/
theorem claim_C2_witness :
    current_agent rowsC2 = some (S "Broadridge") :=
  (claim_C2_amended regsTie (by decide)).2.1

/-- C3: change detection over a date-ordered timeline drops every state
whose agent is missing or `UNKNOWN`, emits one transition at exactly each
adjacent pair of remaining states with differing agents, emits nothing
when at most one state remains, and on `[A, A, UNKNOWN, B, B, A]` yields
exactly the transitions `A→B` and `B→A`. -/
theorem claim_C3 (rows : List TARow) :
    ((find_changes (agent_history rows)).map
        (fun c => (c.from_agent, c.to_agent)) =
      adjacentChanges ((agent_history rows).map (fun e => e.agent)))
    ∧ ((agent_history rows).length ≤ 1 → find_changes (agent_history rows) = [])
    ∧ ((find_changes (agent_history rowsC3)).map
        (fun c => (c.from_agent, c.to_agent)) =
      [(S "A", S "B"), (S "B", S "A")]) := by
  refine ⟨?_, ?_, by decide⟩
  · cases hh : agent_history rows with
    | nil => rfl
    | cons e rest =>
      cases rest with
      | nil => rfl
      | cons e2 rest2 =>
        have hlen : 1 < (e :: e2 :: rest2).length := by simp
        rw [find_changes, if_pos hlen, changesLoop_spec]
        rfl
  · intro hlen
    cases hh : agent_history rows with
    | nil => rfl
    | cons e rest =>
      cases rest with
      | nil => rfl
      | cons e2 rest2 =>
        rw [hh] at hlen
        simp at hlen

/-- C3 (witness). -/
theorem claim_C3_witness : find_changes (agent_history []) = [] :=
  (claim_C3 []).2.1 (by decide)

/-- C4: canonicalisation uses an inclusive threshold.  With `(b, s)` the
best fuzzy match over the candidate pool (so `s` bounds every candidate's
score), a raw name of trimmed length at least 3 resolves to the owning
canonical name with score `s` when `s` equals the threshold, and to
`(UNKNOWN, 0)` when `s` is strictly below the threshold. -/
theorem claim_C4 (raw_name : Str) (canonical_agents : List (Str × List Str))
    (scorer : Str → Str → ℚ) (threshold : ℚ) (b : Str) (s : ℚ)
    (hne : raw_name.isEmpty = false)
    (hlen : 3 ≤ (trimStr raw_name).length)
    (hbest : bestMatch (trimStr raw_name) (allVariantsOf canonical_agents)
        scorer = some (b, s)) :
    (∀ c ∈ allVariantsOf canonical_agents, scorer (trimStr raw_name) c ≤ s)
    ∧ (s = threshold →
        normalise_agent_name raw_name canonical_agents scorer threshold =
          ((lookupCanonical canonical_agents b).getD (S "UNKNOWN"), threshold))
    ∧ (s < threshold →
        normalise_agent_name raw_name canonical_agents scorer threshold =
          (S "UNKNOWN", 0)) := by
  have hmax := bestMatch_le (trimStr raw_name) scorer _ b s hbest
  have hnonempty : allVariantsOf canonical_agents ≠ [] := by
    intro hnil
    rw [hnil] at hbest
    cases hbest
  have hcond : (raw_name.isEmpty || decide ((trimStr raw_name).length < 3)) = false := by
    rw [hne]
    simp only [Bool.false_or, decide_eq_false_iff_not]
    omega
  have hvne : (!(allVariantsOf canonical_agents).isEmpty) = true := by
    cases hv : allVariantsOf canonical_agents with
    | nil => exact absurd hv hnonempty
    | cons a t => rfl
  refine ⟨hmax, ?_, ?_⟩
  · intro hs
    subst hs
    rw [normalise_agent_name, if_neg (by rw [hcond]; exact Bool.false_ne_true)]
    simp only [hvne, if_pos]
    rw [extractOne, hbest]
    simp
  · intro hs
    rw [normalise_agent_name, if_neg (by rw [hcond]; exact Bool.false_ne_true)]
    simp only [hvne, if_pos]
    rw [extractOne, hbest]
    have hnle : ¬ threshold ≤ s := not_le_of_lt hs
    simp [hnle]

/-- C4 (witness): with a scorer whose best score over the pool equals the
threshold 80 the canonical name is returned with score 80, and with one
whose best score is 79 the result is `(UNKNOWN, 0)`. -/
theorem claim_C4_witness :
    normalise_agent_name (S "Computershare Trust Co")
        [(S "Computershare", [S "Computershare Trust Company"])]
        (fun _ c => if c == S "Computershare" then (80 : ℚ) else 50) 80 =
      (S "Computershare", 80)
    ∧ normalise_agent_name (S "Computershare Trust Co")
        [(S "Computershare", [S "Computershare Trust Company"])]
        (fun _ c => if c == S "Computershare" then (79 : ℚ) else 50) 80 =
      (S "UNKNOWN", 0) := by
  constructor
  · exact (claim_C4 (S "Computershare Trust Co")
      [(S "Computershare", [S "Computershare Trust Company"])]
      (fun _ c => if c == S "Computershare" then (80 : ℚ) else 50) 80
      (S "Computershare") 80 (by decide) (by decide) (by decide)).2.1 rfl
  · exact (claim_C4 (S "Computershare Trust Co")
      [(S "Computershare", [S "Computershare Trust Company"])]
      (fun _ c => if c == S "Computershare" then (79 : ℚ) else 50) 80
      (S "Computershare") 79 (by decide) (by decide) (by decide)).2.2 (by norm_num)

/-- C5: mention extraction pools all strategies' occurrence lists and
deduplicates by `(lowercased brand, lowercased first 50 characters of
context)`: the output is an order-preserving subsequence of the pooled
occurrences, holds pairwise-distinct keys, keeps exactly the first
occurrence of each key, and appending a second pass whose mentions all
repeat already-seen keys (the same sentence fed twice) leaves the output
unchanged — exactly one raw mention per distinct context window. -/
theorem claim_C5 (perStrategy : List (List Mention)) (extra : List Mention) :
    List.Sublist (extract_transfer_agents perStrategy) perStrategy.flatten
    ∧ (extract_transfer_agents perStrategy).Pairwise
        (fun a b => mentionKey a ≠ mentionKey b)
    ∧ (∀ m ∈ extract_transfer_agents perStrategy,
        perStrategy.flatten.find? (fun x => decide (mentionKey x = mentionKey m)) =
          some m)
    ∧ ((∀ m ∈ extra, ∃ m1 ∈ perStrategy.flatten, mentionKey m1 = mentionKey m) →
        dedupFirst mentionKey [] (perStrategy.flatten ++ extra) =
          extract_transfer_agents perStrategy) := by
  refine ⟨?_, ?_, ?_, ?_⟩
  · exact sublist_dedupFirst mentionKey perStrategy.flatten []
  · exact dedupFirst_pairwise mentionKey perStrategy.flatten []
  · intro m hm
    exact (dedupFirst_mem_spec mentionKey perStrategy.flatten [] m hm).2
  · intro hcov
    rw [extract_transfer_agents]
    refine dedupFirst_append_covered mentionKey perStrategy.flatten extra [] ?_
    intro m hm
    rcases hcov m hm with ⟨m1, hm1, hk⟩
    exact Or.inr ⟨m1, hm1, hk⟩

/-- C5 (witness): the same fact matched twice (identical brand and
context window) survives as exactly one mention. -/
theorem claim_C5_witness :
    dedupFirst mentionKey [] ([[mentionEx1]].flatten ++ [mentionEx2]) =
      extract_transfer_agents [[mentionEx1]] :=
  (claim_C5 [[mentionEx1]] [mentionEx2]).2.2.2 (by decide)

/-- C6: brand collapsing is first-match-wins over the ordered rule list —
whenever rule `i` matches a name and no earlier rule does, the result is
rule `i`'s label; in particular `"JPMorgan Equiniti Services"` (which
matches both the BNY Mellon rule via "jpmorgan" and the later Equiniti
rule) collapses to `BNY Mellon`, never `Equiniti`. -/
theorem claim_C6 (s : Str) (i : Nat) (hi : i < brandRules.length)
    (hmatch : (brandRules.get ⟨i, hi⟩).1 (lowerStr s) = true)
    (hfirst : ∀ j (hj : j < i),
      (brandRules.get ⟨j, Nat.lt_trans hj hi⟩).1 (lowerStr s) = false) :
    brand_of (some s) = some (brandRules.get ⟨i, hi⟩).2
    ∧ brand_of (some (S "JPMorgan Equiniti Services")) = some (S "BNY Mellon") := by
  refine ⟨?_, by decide⟩
  rw [brand_of_eq_findRule,
    find?_first (fun r => r.1 (lowerStr s)) brandRules i hi hmatch hfirst]

/-- C6 (witness): applied at `"JPMorgan Equiniti Services"` and the BNY
Mellon rule (index 2), with the two earlier rules checked not to match. -/
theorem claim_C6_witness :
    brand_of (some (S "JPMorgan Equiniti Services")) = some (S "BNY Mellon") :=
  (claim_C6 (S "JPMorgan Equiniti Services") 2 (by decide) (by decide)
    (by decide)).2

/-- C7: aggregation counts each distinct subject exactly once — the
latest-per-CIK table carries exactly the distinct CIKs (in sorted order,
one row each, so repeated mentions cannot inflate a count) — every row of
the market-share table holds the number of such subjects whose latest
brand is its label together with `count / total-distinct-subjects × 100`
rounded to 2 decimals, and subjects `{1: X, 2: X, 3: Y}` yield the table
`[(X, 2, 66.67), (Y, 1, 33.33)]`. -/
theorem claim_C7 (ms : List MSMention) :
    ((latest_per_cik ms).map (fun r => r.cik) = distinctCiksSorted ms)
    ∧ (∀ p ∈ calculate_market_share ms,
        p.2.1 = ((latest_per_cik ms).map (fun r => r.brand)).count p.1
        ∧ p.2.2 = round2 ((p.2.1 : ℚ) /
            ((distinctCiksSorted ms).length : ℚ) * 100))
    ∧ calculate_market_share msEx =
        [(S "X", 2, 6667/100), (S "Y", 1, 3333/100)] := by
  refine ⟨latest_per_cik_map_cik ms, ?_, ?_⟩
  · intro p hp
    have hcms : calculate_market_share ms =
        (valueCounts ((latest_per_cik ms).map (fun r => r.brand))).map
          (fun q => (q.1, q.2, round2 ((q.2 : ℚ) /
            (Nat.cast (((valueCounts ((latest_per_cik ms).map (fun r => r.brand))).map
              (fun q2 => q2.2)).sum) : ℚ) * 100))) := rfl
    rw [hcms] at hp
    rcases List.mem_map.1 hp with ⟨q, hqvc, hqp⟩
    have hcount := mem_valueCounts _ q hqvc
    have htotal : ((valueCounts ((latest_per_cik ms).map (fun r => r.brand))).map
        (fun q2 => q2.2)).sum = (distinctCiksSorted ms).length := by
      rw [sum_valueCounts]
      have hlen := congrArg List.length (latest_per_cik_map_cik ms)
      rw [List.length_map] at hlen
      rw [List.length_map, hlen]
    subst hqp
    refine ⟨hcount, ?_⟩
    show round2 ((q.2 : ℚ) /
        (Nat.cast (((valueCounts ((latest_per_cik ms).map (fun r => r.brand))).map
          (fun q2 => q2.2)).sum) : ℚ) * 100) =
      round2 ((q.2 : ℚ) / ((distinctCiksSorted ms).length : ℚ) * 100)
    rw [htotal]
  · have hvc : valueCounts ((latest_per_cik msEx).map (fun r => r.brand)) =
        [(S "X", 2), (S "Y", 1)] := by decide
    have hcms : calculate_market_share msEx =
        (valueCounts ((latest_per_cik msEx).map (fun r => r.brand))).map
          (fun q => (q.1, q.2, round2 ((q.2 : ℚ) /
            (Nat.cast (((valueCounts ((latest_per_cik msEx).map (fun r => r.brand))).map
              (fun q2 => q2.2)).sum) : ℚ) * 100))) := rfl
    rw [hcms, hvc]
    simp only [List.map_cons, List.map_nil, List.sum_cons, List.sum_nil]
    norm_num
    constructor
    · unfold round2 roundHalfEven
      norm_num
    · unfold round2 roundHalfEven
      norm_num

/-- C7 (witness): the `X` row of the concrete table carries the count of
distinct subjects whose latest brand is `X`. -/
theorem claim_C7_witness :
    ((S "X", 2, (6667 : ℚ)/100) : Str × Nat × ℚ).2.1 =
      ((latest_per_cik msEx).map (fun r => r.brand)).count
        ((S "X", 2, (6667 : ℚ)/100) : Str × Nat × ℚ).1 :=
  ((claim_C7 msEx).2.1 (S "X", 2, (6667 : ℚ)/100)
    (by rw [(claim_C7 msEx).2.2]; exact List.mem_cons_self _ _)).1

/-- C9: with an empty taxonomy, canonicalisation returns `(UNKNOWN, 0)`
for every raw name (it is total — no exception), the empty candidate pool
being treated like a below-threshold match. -/
theorem claim_C9 (raw_name : Str) (scorer : Str → Str → ℚ) (threshold : ℚ) :
    normalise_agent_name raw_name [] scorer threshold = (S "UNKNOWN", 0) := by
  rw [normalise_agent_name]
  split_ifs with h1
  · rfl
  · rfl

/-- C10: the brand collapser never fails on a `None` or empty-string
entity name — no rule matches the empty lower-cased text and the original
value is returned unchanged. -/
theorem claim_C10 :
    brand_of none = none ∧ brand_of (some []) = some [] := by
  decide
